import Mathlib

/-!
Verification development for the mssqlcopy table-copy tool.

The Go source is shallowly embedded: pure helpers become Lean functions,
the stateful pieces (bulk loader, progress monitor, writer stage of a copy
task) become explicit state-passing step functions, Go maps become
association lists with Go's zero-value lookup semantics, and Go strings
become `String` / `List Char`.
-/

/-- Character list, the working representation of a Go string
(Go strings are immutable byte/char sequences). -/
abbrev Chars := List Char

/-! ## Schema comparison (cmd/root.go, `compareSchemas`)

A Go `map[string]string` is modelled as an association list with pairwise
distinct keys; indexing a Go map at an absent key yields the zero value `""`.
-/

/-- Go map indexing `m[k]` for a `map[string]string`: the stored value when
the key is present, the zero value `""` otherwise. -/
def mapGet : List (String × String) → String → String
  | [], _ => ""
  | (k', v) :: rest, k => if k' = k then v else mapGet rest k

/-- The association list represents a Go map: keys are pairwise distinct. -/
def nodupKeys (m : List (String × String)) : Prop := (m.map Prod.fst).Nodup

/-- Embeds `compareSchemas` (cmd/root.go lines 299-311): sizes must agree and
every source column's type must equal the target map's value at that column
(Go zero-value `""` when the column is absent from the target). -/
def compareSchemas (sourceSchema targetSchema : List (String × String)) : Bool :=
  if sourceSchema.length ≠ targetSchema.length then false
  else sourceSchema.all (fun p => mapGet targetSchema p.1 == p.2)

/-! ## Bulk loader (pkg/mssql/bulk.go)

`BulkInsert` holds `count` (rows since the last commit) and the pair
`stmt`/`tx`, which the Go code always assigns and clears together; the single
flag `stmtOpen` stands for `bi.stmt != nil` (equivalently `bi.tx != nil`).
`openTx` counts the driver transactions currently open (incremented by
`BeginTx`, decremented by `tx.Commit` / `tx.Rollback`); it is the observable
the at-most-one-open-transaction claim is about. Driver calls are modelled
on their success path. -/
structure BulkInsert where
  commitCount : Nat
  count : Nat
  stmtOpen : Bool
  openTx : Nat
deriving DecidableEq, Repr

/-- Embeds `NewBulkInsert` (bulk.go lines 22-31): commit threshold 50 000,
no row seen, no statement or transaction open. -/
def NewBulkInsert : BulkInsert :=
  { commitCount := 50000, count := 0, stmtOpen := false, openTx := 0 }

/-- Embeds `getStmt` (bulk.go lines 33-53): lazily begins a transaction and
prepares the bulk statement when none is open. -/
def BulkInsert.getStmt (bi : BulkInsert) : BulkInsert :=
  if bi.stmtOpen then bi else { bi with stmtOpen := true, openTx := bi.openTx + 1 }

/-- Embeds `Commit` (bulk.go lines 86-111): a no-op when no statement is
open; otherwise flushes, closes the statement, commits the transaction and
resets `count`, `stmt`, `tx`. -/
def BulkInsert.commit (bi : BulkInsert) : BulkInsert :=
  if bi.stmtOpen then
    { bi with count := 0, stmtOpen := false, openTx := bi.openTx - 1 }
  else bi

/-- Embeds the state effect of `Insert` (bulk.go lines 55-84): ensure a
statement is open, execute the row, bump `count`, and implicitly `Commit`
when `count` reaches a multiple of `commitCount`. -/
def BulkInsert.insert (bi : BulkInsert) : BulkInsert :=
  let bi₁ := bi.getStmt
  let bi₂ := { bi₁ with count := bi₁.count + 1 }
  if bi₂.count % bi₂.commitCount = 0 then bi₂.commit else bi₂

/-- Embeds `Rollback` (bulk.go lines 113-118): an error when no transaction
is open, otherwise `tx.Rollback()` closes the underlying transaction (the Go
code does not clear `bi.tx`/`bi.stmt` on this path). -/
def BulkInsert.rollback (bi : BulkInsert) : Except String BulkInsert :=
  if bi.stmtOpen then Except.ok { bi with openTx := bi.openTx - 1 }
  else Except.error ("no active transaction to rollback")

/-- The loader's public operations, as invoked by a caller. -/
inductive LoaderOp where
  | insertOp
  | commitOp
  | rollbackOp
deriving DecidableEq, Repr

/-- One public call on the loader; a failed `Rollback` leaves the state
unchanged. -/
def loaderStep (bi : BulkInsert) : LoaderOp → BulkInsert
  | .insertOp => bi.insert
  | .commitOp => bi.commit
  | .rollbackOp =>
    match bi.rollback with
    | .ok b => b
    | .error _ => bi

/-- Runs a sequence of loader calls from a given state. -/
def runLoader (bi : BulkInsert) : List LoaderOp → BulkInsert
  | [] => bi
  | op :: ops => runLoader (loaderStep bi op) ops

/-- The loader invariant: at most one driver transaction is open, and none
is open when no statement is held. -/
def LoaderInv (bi : BulkInsert) : Prop :=
  bi.openTx ≤ 1 ∧ (bi.stmtOpen = false → bi.openTx = 0)

/-! ## Go runtime values reaching `BulkInsert.Insert` (bulk.go lines 55-63)

A row is a `[]interface{}`; the possible dynamic representations that matter
to the coercion loop are strings, byte slices (`[]uint8`), numbers, nils and
`*interface{}` pointers (the row iterator in db.go wraps every scanned cell
in one). A Go string is itself a byte sequence, so `vString` carries bytes. -/
inductive GoValue where
  | vString (bytes : List Nat)
  | vBytes (bytes : List Nat)
  | vInt (n : Int)
  | vNull
  | vPtr (v : GoValue)
deriving DecidableEq, Repr

/-- Embeds the per-value coercion in `Insert` (bulk.go lines 57-63): only a
`*interface{}` whose pointee is a `[]uint8` is replaced, by the string with
those bytes (`row[i] = string(b)`); every other value passes through. -/
def bulkInsertConvertValue : GoValue → GoValue
  | .vPtr (.vBytes b) => .vString b
  | v => v

/-- The coercion loop over a whole row. -/
def bulkInsertConvertRow (row : List GoValue) : List GoValue :=
  row.map bulkInsertConvertValue

/-- A value whose runtime representation is a raw byte sequence, either bare
or behind the iterator's `*interface{}` wrapping. -/
def isRawByteSeq : GoValue → Bool
  | .vBytes _ => true
  | .vPtr (.vBytes _) => true
  | _ => false

/-! ## Scheduler chunking (pkg/cli/utils.go, `chunkBy`)

The Go loop `for chunkSize < len(items)` chops `chunkSize`-element prefixes
and finally appends the remainder. For `chunkSize = 0` and a non-empty list
the Go loop never terminates; the embedding returns `[items]` on that branch,
which no theorem relies on (the claims assume a positive chunk size). -/
def chunkBy {α : Type} (items : List α) (chunkSize : Nat) : List (List α) :=
  if _h : 0 < chunkSize ∧ chunkSize < items.length then
    items.take chunkSize :: chunkBy (items.drop chunkSize) chunkSize
  else [items]
termination_by items.length
decreasing_by
  simp only [List.length_drop]
  omega

/-! ## Filter parser (pkg/mssql/db.go lines 363-459)

The parser works on Go strings; the embedding works on `Chars` and converts
at the `String` boundary. `goSplitSpace` is `strings.Split(s, " ")`,
`trimBy` is `strings.Trim` with a cutset, `upperChars` is `strings.ToUpper`
(the code only uppercases the ASCII tokens `and`/`or` and the operator
characters, on which mapping `Char.toUpper` agrees with Go). -/

/-- Embeds `strings.Split(s, " ")`: splits at every single space, keeping
empty pieces; the empty string yields `[[]]`. -/
def goSplitSpace : Chars → List Chars
  | [] => [[]]
  | c :: rest =>
    if c = ' ' then [] :: goSplitSpace rest
    else
      match goSplitSpace rest with
      | p :: ps => (c :: p) :: ps
      | [] => [[c]]

/-- Embeds `strings.Trim(s, cutset)`: removes the longest run of cutset
characters from both ends. -/
def trimBy (p : Char → Bool) (s : Chars) : Chars :=
  ((s.dropWhile p).reverse.dropWhile p).reverse

/-- Whitespace cutset character used by `splitExpressions` (`" "`). -/
def isSpaceC (c : Char) : Bool := c = ' '

/-- Embeds `strings.ToUpper` on the tokens this code applies it to. -/
def upperChars (s : Chars) : Chars := s.map Char.toUpper

/-- The four connector tokens of the `switch` in `splitExpressions`
(db.go line 419): `AND`, `OR`, `and`, `or`. -/
def isConnToken (t : Chars) : Prop :=
  t = "AND".data ∨ t = "OR".data ∨ t = "and".data ∨ t = "or".data

instance (t : Chars) : Decidable (isConnToken t) := by
  unfold isConnToken
  infer_instance

/-- An already-uppercased connector, as stored in `filter.operators`. -/
def isConnUp (t : Chars) : Prop := t = "AND".data ∨ t = "OR".data

instance (t : Chars) : Decidable (isConnUp t) := by
  unfold isConnUp
  infer_instance

/-- Embeds the token loop of `splitExpressions` (db.go lines 417-433):
`b` is the accumulated `partBuilder` contents. A connector token flushes the
trimmed builder followed by the uppercased connector; any other token is
appended to the builder with a trailing space; a non-empty final builder is
flushed at the end. -/
def splitGo : List Chars → Chars → List Chars
  | [], b => if b.length > 0 then [trimBy isSpaceC b] else []
  | t :: ts, b =>
    if isConnToken t then trimBy isSpaceC b :: upperChars t :: splitGo ts []
    else splitGo ts (b ++ t ++ [' '])

/-- Embeds `splitExpressions` (db.go lines 413-434). -/
def splitExpressions (s : Chars) : List Chars := splitGo (goSplitSpace s) []

/-- Character class of the regexp's first group
`[\[\]\"a-zA-Z0-9_ ]` (db.go line 436). -/
def isCls1 (c : Char) : Bool :=
  c = '[' ∨ c = ']' ∨ c = '"' ∨ ('a' ≤ c ∧ c ≤ 'z') ∨ ('A' ≤ c ∧ c ≤ 'Z') ∨
    ('0' ≤ c ∧ c ≤ '9') ∨ c = '_' ∨ c = ' '

/-- Character class of the operator group `[=<>]`. -/
def isOpChar (c : Char) : Bool := c = '=' ∨ c = '<' ∨ c = '>'

/-- The third group `(.+)`: a greedy non-empty run of non-newline
characters with nothing after it, so it takes the longest newline-free
prefix of the remainder. -/
def takeDotRun (cs : Chars) : Chars := cs.takeWhile (fun c => ¬ c = '\n')

/-- Operator group matched greedily at width 2 (`{1,2}` prefers two
characters), followed by a literal space and the `.+` group. -/
def tryTwoOp : Chars → Option (Chars × Chars)
  | a :: b :: c :: r =>
    if isOpChar a ∧ isOpChar b ∧ c = ' ' then
      let g3 := takeDotRun r
      if g3.isEmpty then none else some ([a, b], g3)
    else none
  | _ => none

/-- Operator group at width 1, followed by a literal space and `.+`. -/
def tryOneOp : Chars → Option (Chars × Chars)
  | a :: b :: r =>
    if isOpChar a ∧ b = ' ' then
      let g3 := takeDotRun r
      if g3.isEmpty then none else some ([a], g3)
    else none
  | _ => none

/-- Backtracking over the `{1,2}` quantifier: two operator characters are
preferred, one is the fallback. -/
def matchOpsTail (cs : Chars) : Option (Chars × Chars) :=
  match tryTwoOp cs with
  | some x => some x
  | none => tryOneOp cs

/-- Lazy matching of the first group `([\[\]\"a-zA-Z0-9_ ]+?)` at a fixed
start position: after each class character is appended to the group, the
rest of the pattern (literal space, operator group, literal space, `.+`) is
tried; on failure the group is extended by one more class character
(a space is in the class, so a failed separator space is absorbed). -/
def matchG1From (acc : Chars) : Chars → Option (Chars × Chars × Chars)
  | [] => none
  | c :: rest =>
    if isCls1 c then
      match rest with
      | ' ' :: rest2 =>
        match matchOpsTail rest2 with
        | some (g2, g3) => some (acc ++ [c], g2, g3)
        | none => matchG1From (acc ++ [c]) rest
      | _ => matchG1From (acc ++ [c]) rest
    else none

/-- Embeds `expressionPattern.FindStringSubmatch` (db.go lines 436, 450):
Go's regexp is unanchored and leftmost-first, so start positions are tried
left to right and the first position admitting a match wins; `none` stands
for a `nil` result (`len(matches) = 0 < 3`). -/
def findExprMatch : Chars → Option (Chars × Chars × Chars)
  | [] => none
  | c :: rest =>
    match matchG1From [] (c :: rest) with
    | some m => some m
    | none => findExprMatch rest

/-- Embeds the `expression` struct (db.go lines 363-367). -/
structure expression where
  column : Chars
  operator : Chars
  value : Chars
deriving DecidableEq, Repr

/-- Embeds the `filter` struct (db.go lines 374-377). -/
structure filter where
  expressions : List expression
  operators : List Chars
deriving DecidableEq, Repr

/-- Cutset `"\"[]"` applied to the column group (db.go line 455). -/
def isIdTrimC (c : Char) : Bool := c = '"' ∨ c = '[' ∨ c = ']'

/-- Cutset `"'"` applied to the value group (db.go line 455). -/
def isQuoteC (c : Char) : Bool := c = '\''

/-- Doubling replacement `strings.Replace(s, c, cc, -1)`, as used by the
TSQL quoter for `]` and `'`. -/
def escDouble (c : Char) : Chars → Chars
  | [] => []
  | x :: xs => if x = c then c :: c :: escDouble c xs else x :: escDouble c xs

/-- The go-mssqldb `TSQLQuoter.ID`: brackets the identifier, doubling any
closing bracket. -/
def quoterIDChars (s : Chars) : Chars := '[' :: (escDouble ']' s ++ [']'])

/-- The go-mssqldb `TSQLQuoter.Value` on a string: single-quotes the value,
doubling any single quote. -/
def quoterValueChars (s : Chars) : Chars := '\'' :: (escDouble '\'' s ++ ['\''])

/-- Embeds `expression.String` (db.go lines 369-372):
`( <quoted column> <uppercased operator> <quoted value> )`. -/
def expressionString (e : expression) : Chars :=
  '(' :: ' ' :: (quoterIDChars e.column ++ ' ' :: (upperChars e.operator ++
    ' ' :: (quoterValueChars e.value ++ [' ', ')'])))

/-- The tail of the interleaving loop of `filter.String` once the
expressions are exhausted: each remaining connector is written with its
surrounding single spaces. -/
def renderOpsOnly : List Chars → Chars
  | [] => []
  | o :: os => ' ' :: (o ++ ' ' :: renderOpsOnly os)

/-- Embeds the interleaving loop of `filter.String` (db.go lines 392-408):
each iteration writes the next expression if any remain, then the next
connector (with surrounding single spaces) if any remain. -/
def renderLoop : List expression → List Chars → Chars
  | [], os => renderOpsOnly os
  | e :: es, [] => expressionString e ++ renderLoop es []
  | e :: es, o :: os => expressionString e ++ ' ' :: (o ++ ' ' :: renderLoop es os)

/-- Embeds `filter.String` (db.go lines 379-411): the empty expression list
renders as the tautology `1=1`. -/
def filterString (f : filter) : String :=
  if f.expressions.length = 0 then "1=1" else String.mk (renderLoop f.expressions f.operators)

/-- Embeds the part loop of `parseFilter` (db.go lines 444-456): an
`AND`/`OR` part is appended to the operators, any other part must match the
expression pattern and is appended to the expressions with its column
unquoted and its value stripped of surrounding single quotes. -/
def parseGo : List Chars → filter → Except String filter
  | [], f => Except.ok f
  | p :: ps, f =>
    if isConnUp p then parseGo ps { f with operators := f.operators ++ [p] }
    else
      match findExprMatch p with
      | some (g1, g2, g3) =>
        parseGo ps
          { f with
            expressions := f.expressions ++
              [{ column := trimBy isIdTrimC g1, operator := g2, value := trimBy isQuoteC g3 }] }
      | none =>
        Except.error ("expression (\"" ++ String.mk p ++
          "\") only has 0 parts, while we expect 3 parts")

/-- Embeds `parseFilter` (db.go lines 438-459). -/
def parseFilter (queryFilter : String) : Except String filter :=
  if queryFilter = "" then Except.ok { expressions := [], operators := [] }
  else parseGo (splitExpressions queryFilter.data) { expressions := [], operators := [] }

/-- Modelled from the spec: the rendering shape the spec describes — the
atoms interleaved with their connectors in original order, joined by single
spaces, with no trailing separator. Compared against `renderLoop`, which is
translated from the code. -/
def specRender : List Chars → List Chars → Chars
  | [], _ => []
  | [a], _ => a
  | a :: _ :: _, [] => a
  | a :: b :: as, c :: cs => a ++ ' ' :: (c ++ ' ' :: specRender (b :: as) cs)

/-- Whether the final space-separated token of the input is one of the
connector tokens; successful parses of such inputs are the trailing-connector
cases. -/
def lastTokenIsConnector (q : String) : Bool :=
  match (goSplitSpace q.data).getLast? with
  | some tl => decide (isConnToken tl)
  | none => false

/-- The `partBuilder` contents after appending each of the given tokens with
a trailing space (`partBuilder.WriteString(part + " ")`); used to reason
about `splitGo`'s accumulator. -/
def flatTokens (tks : List Chars) : Chars :=
  tks.foldr (fun t acc => t ++ ' ' :: acc) []

/-- Shape of a `splitExpressions` result: expression parts (never equal to
an uppercased connector) alternating with single uppercased connectors,
starting with an expression part and possibly ending with a connector. -/
inductive PartsOut : List Chars → Prop where
  | nil : PartsOut []
  | single (p : Chars) : ¬ isConnUp p → PartsOut [p]
  | cons (p c : Chars) (rest : List Chars) :
      ¬ isConnUp p → isConnUp c → PartsOut rest → PartsOut (p :: c :: rest)

/-! ## Tables and foreign keys (pkg/mssql/db.go) -/

/-- Embeds `TableRef` (db.go lines 17-20). -/
structure TableRef where
  schema : String
  table : String
deriving DecidableEq, Repr

/-- Embeds `TableRef.String` (db.go lines 22-25): both parts pass through
`TSQLQuoter.ID`, joined by a dot. -/
def tableRefString (t : TableRef) : String :=
  String.mk (quoterIDChars t.schema.data) ++ "." ++ String.mk (quoterIDChars t.table.data)

/-- Embeds `ForeingKeyConstraint` (db.go lines 185-194; the source spells it
this way). -/
structure ForeingKeyConstraint where
  name : String
  schema : String
  table : String
  column : String
  referencedSchema : String
  referencedTable : String
  referencedColumn : String
  noCheck : String
deriving DecidableEq, Repr

/-! ## Progress monitor (pkg/monitor/monitor.go)

The monitor's run loop consumes events from a channel; the embedding runs it
on a list of events. Rendering, the render ticker and context cancellation
only produce output and never change which branch an event takes, so they
are not part of the state. The `monitors` map (keyed by `TableRef.String()`)
is an association list; the Go code inserts a key only after checking it is
absent, so keys stay distinct. -/

/-- Embeds the fields of `ProgressReporter` the run loop reads and writes
(monitor.go lines 222-229); the `progressbar` handle is render-only. -/
structure ProgressReporter where
  rowTotal : Int
  rowsCopied : Int
  done : Bool
  err : Option String
deriving DecidableEq, Repr

/-- Embeds `NewProgressReporter` (monitor.go lines 231-249). -/
def NewProgressReporter : ProgressReporter :=
  { rowTotal := 0, rowsCopied := 0, done := false, err := none }

/-- Embeds the `Event` variants (monitor.go lines 18-41). -/
inductive Event where
  | progressUpdate (rowsCopied : Int) (table : TableRef)
  | copyTaskStarted (table : TableRef)
  | countUpdate (totalRows : Int) (table : TableRef)
  | copyTaskFinished (table : TableRef)
  | errorEvent (table : TableRef) (err : String)
deriving DecidableEq, Repr

/-- The table carried by an event. -/
def Event.table : Event → TableRef
  | .progressUpdate _ t => t
  | .copyTaskStarted t => t
  | .countUpdate _ t => t
  | .copyTaskFinished t => t
  | .errorEvent t _ => t

/-- Whether the event is the task-started variant. -/
def Event.isStarted : Event → Bool
  | .copyTaskStarted _ => true
  | _ => false

/-- Go map lookup `m.monitors[key]` with presence test. -/
def lookupMonitor : List (String × ProgressReporter) → String → Option ProgressReporter
  | [], _ => none
  | (k', r) :: rest, k => if k' = k then some r else lookupMonitor rest k

/-- In-place update of the reporter stored at a key. -/
def updateMonitor (ms : List (String × ProgressReporter)) (k : String)
    (f : ProgressReporter → ProgressReporter) : List (String × ProgressReporter) :=
  ms.map (fun p => if p.1 = k then (p.1, f p.2) else p)

/-- Embeds the `anyRunning` scan (monitor.go lines 120-126 and 139-145). -/
def anyRunning (ms : List (String × ProgressReporter)) : Bool :=
  ms.any (fun p => ¬ p.2.done)

/-- The monitor state the run loop reads and writes: the reporter map.
Sorted render keys and the last-render cache only affect output. -/
structure Monitor where
  monitors : List (String × ProgressReporter)
deriving DecidableEq, Repr

/-- Outcome of handling one event: continue looping, or return from `Run`
(`none` is the `nil` return when every table is done, `some msg` an error
return). -/
inductive StepResult where
  | next (m : Monitor)
  | stop (result : Option String)
deriving DecidableEq, Repr

/-- Embeds the event `switch` of `Monitor.Run` (monitor.go lines 87-152):
any event other than task-started whose table has no registered reporter
returns an error naming the table; a duplicate task-started does likewise;
a task-finished or task-error event that leaves no table running returns
`nil`. -/
def monitorStep (m : Monitor) : Event → StepResult
  | .progressUpdate n t =>
    match lookupMonitor m.monitors (tableRefString t) with
    | none => .stop (some ("no monitor found for table " ++ tableRefString t))
    | some _ =>
      .next { monitors := (updateMonitor m.monitors (tableRefString t)
          (fun r => { r with rowsCopied := r.rowsCopied + n })) }
  | .copyTaskStarted t =>
    match lookupMonitor m.monitors (tableRefString t) with
    | none => .next { monitors := m.monitors ++ [(tableRefString t, NewProgressReporter)] }
    | some _ => .stop (some ("monitor already exists for table " ++ tableRefString t))
  | .countUpdate n t =>
    match lookupMonitor m.monitors (tableRefString t) with
    | none => .stop (some ("no monitor found for table " ++ tableRefString t))
    | some _ =>
      .next { monitors := (updateMonitor m.monitors (tableRefString t)
          (fun r => { r with rowTotal := n })) }
  | .copyTaskFinished t =>
    match lookupMonitor m.monitors (tableRefString t) with
    | none => .stop (some ("no monitor found for table " ++ tableRefString t))
    | some _ =>
      let ms := updateMonitor m.monitors (tableRefString t) (fun r => { r with done := true })
      if anyRunning ms then .next { monitors := ms } else .stop none
  | .errorEvent t e =>
    match lookupMonitor m.monitors (tableRefString t) with
    | none => .stop (some ("no monitor found for table " ++ tableRefString t))
    | some _ =>
      let ms := updateMonitor m.monitors (tableRefString t)
        (fun r => { r with done := true, err := some e })
      if anyRunning ms then .next { monitors := ms } else .stop none

/-- Result of running the loop on a finite event list: still waiting for
events, or returned from `Run`. -/
inductive RunResult where
  | running (m : Monitor)
  | halted (result : Option String)
deriving DecidableEq, Repr

/-- Runs `Monitor.Run`'s event handling over a list of events. -/
def runEvents : Monitor → List Event → RunResult
  | m, [] => .running m
  | m, e :: es =>
    match monitorStep m e with
    | .next m' => runEvents m' es
    | .stop r => .halted r

/-! ## Writer stage of a copy task (cmd/root.go lines 211-294)

The writer goroutine drains the data channel; the embedding runs it on the
list of rows the channel delivers. The target database is a state holding
the target table's rows and the foreign keys referencing it; each store call
the writer makes is recorded in a trace. Store calls are modelled on their
success path (each failure branch in the source only returns early). -/

/-- The target-store state a copy task's writer can affect: the rows of the
target table and the foreign keys referencing it. -/
structure TargetState where
  rows : List (List GoValue)
  fks : List ForeingKeyConstraint
deriving DecidableEq, Repr

/-- The store calls the writer stage can make, in trace order. -/
inductive TargetOp where
  | getRefFks
  | dropRefFks
  | emptyTable
  | execInsert (row : List GoValue)
  | commitTx
  | addFks
deriving DecidableEq, Repr

/-- Embeds the `for row := range dataChan` loop (root.go lines 218-267):
on the first row only, the referencing foreign keys are fetched
(`GetReferencedForeignKeys`), dropped (`DropReferencedForeignKeys`) and the
table truncated (`EmptyTable`); then every row goes through
`bulkInsert.Insert`, whose byte coercion and implicit threshold commit are
the `bulkInsertConvertRow` / `BulkInsert.insert` models. -/
def writerLoop (target : TargetState) (bi : BulkInsert) (i : Nat)
    (fks : List ForeingKeyConstraint) :
    List (List GoValue) → TargetState × BulkInsert × Nat × List ForeingKeyConstraint × List TargetOp
  | [] => (target, bi, i, fks, [])
  | row :: rest =>
    let setup : TargetState × List ForeingKeyConstraint × List TargetOp :=
      if i = 0 then
        ({ rows := [], fks := [] }, target.fks,
          [TargetOp.getRefFks, TargetOp.dropRefFks, TargetOp.emptyTable])
      else (target, fks, [])
    let row' := bulkInsertConvertRow row
    let target₁ : TargetState := { setup.1 with rows := setup.1.rows ++ [row'] }
    let insertTrace : List TargetOp :=
      if (bi.getStmt.count + 1) % bi.getStmt.commitCount = 0 then
        [TargetOp.execInsert row', TargetOp.commitTx]
      else [TargetOp.execInsert row']
    let r := writerLoop target₁ bi.insert (i + 1) setup.2.1 rest
    (r.1, r.2.1, r.2.2.1, r.2.2.2.1, setup.2.2 ++ insertTrace ++ r.2.2.2.2)

/-- Embeds the writer goroutine (root.go lines 211-294): open the loader
lazily, drain the channel through `writerLoop`, then `Commit` (a driver
commit only if a statement is open) and, when foreign keys were dropped,
re-add them (`AddForeignKeys`). -/
def copyTaskWriter (target : TargetState) (rows : List (List GoValue)) :
    TargetState × List TargetOp :=
  let r := writerLoop target NewBulkInsert 0 [] rows
  let target₁ := r.1
  let bi₁ := r.2.1
  let fks := r.2.2.2.1
  let trace := r.2.2.2.2
  let trace₁ := if bi₁.stmtOpen then trace ++ [TargetOp.commitTx] else trace
  if fks.length > 0 then
    ({ target₁ with fks := target₁.fks ++ fks }, trace₁ ++ [TargetOp.addFks])
  else (target₁, trace₁)

/-! ## Helper lemmas -/

/-- A present key with distinct keys is looked up to its stored value. -/
theorem mapGet_eq_of_mem {m : List (String × String)} {k v : String}
    (hnd : nodupKeys m) (hm : (k, v) ∈ m) : mapGet m k = v := by
  induction m with
  | nil => cases hm
  | cons p rest ih =>
    obtain ⟨k', v'⟩ := p
    simp only [nodupKeys, List.map_cons, List.nodup_cons] at hnd
    rcases List.mem_cons.1 hm with h | h
    · cases h
      simp [mapGet]
    · have hk' : ¬ k' = k := by
        intro he
        subst he
        exact hnd.1 (List.mem_map.2 ⟨(k', v), h, rfl⟩)
      simp only [mapGet, if_neg hk']
      exact ih hnd.2 h

/-- A looked-up non-empty value comes from an entry of the list. -/
theorem mem_of_mapGet_ne_empty {m : List (String × String)} {k : String}
    (h : mapGet m k ≠ "") : (k, mapGet m k) ∈ m := by
  induction m with
  | nil => simp [mapGet] at h
  | cons p rest ih =>
    obtain ⟨k', v'⟩ := p
    by_cases hk : k' = k
    · subst hk
      simp only [mapGet, if_pos rfl] at h ⊢
      exact List.mem_cons_self _ _
    · simp only [mapGet, if_neg hk] at h ⊢
      exact List.mem_cons_of_mem _ (ih h)

/-- Entry lists with distinct keys are entry-wise distinct. -/
theorem nodup_of_nodupKeys {m : List (String × String)} (h : nodupKeys m) : m.Nodup :=
  List.Nodup.of_map Prod.fst h

/-- The one-directional core of the amended schema-compatibility symmetry:
with distinct keys on both sides and no empty type strings in the source,
a successful comparison implies the reversed comparison succeeds. -/
theorem compareSchemas_true_symm {A B : List (String × String)}
    (hA : nodupKeys A)
    (hvA : ∀ p ∈ A, p.2 ≠ "")
    (h : compareSchemas A B = true) : compareSchemas B A = true := by
  unfold compareSchemas at h ⊢
  by_cases hlen : A.length = B.length
  · simp only [hlen, ne_eq, not_true_eq_false, if_false] at h ⊢
    simp only [List.all_eq_true, beq_iff_eq] at h ⊢
    have hsub : ∀ p ∈ A, p ∈ B := by
      intro p hp
      have hv := h p hp
      have hne : mapGet B p.1 ≠ "" := by
        rw [hv]
        exact hvA p hp
      have := mem_of_mapGet_ne_empty hne
      rwa [hv, Prod.mk.eta] at this
    have hndA : A.Nodup := nodup_of_nodupKeys hA
    have hfin : A.toFinset = B.toFinset := by
      apply Finset.eq_of_subset_of_card_le
      · intro x hx
        exact List.mem_toFinset.2 (hsub x (List.mem_toFinset.1 hx))
      · calc B.toFinset.card ≤ B.length := List.toFinset_card_le B
          _ = A.length := hlen.symm
          _ = A.toFinset.card := (List.toFinset_card_of_nodup hndA).symm
    intro q hq
    have hqA : q ∈ A := List.mem_toFinset.1 (hfin ▸ List.mem_toFinset.2 hq)
    exact mapGet_eq_of_mem hA (Prod.mk.eta ▸ hqA)
  · simp only [ne_eq, hlen, not_false_eq_true, if_true] at h
    cases h

/-- Map lookup is stable under permuting a distinct-key entry list. -/
theorem mapGet_perm {B B' : List (String × String)} {k : String}
    (hB : nodupKeys B) (hp : B.Perm B') : mapGet B k = mapGet B' k := by
  have hB' : nodupKeys B' := (List.Perm.nodup_iff (hp.map Prod.fst)).1 hB
  by_cases h : mapGet B k = ""
  · by_contra hne
    have h' : mapGet B' k ≠ "" := by
      intro he
      exact hne (h.trans he.symm)
    have := mem_of_mapGet_ne_empty h'
    have hmem : (k, mapGet B' k) ∈ B := hp.symm.subset this
    have := mapGet_eq_of_mem hB hmem
    exact hne this
  · have := mem_of_mapGet_ne_empty h
    have hmem : (k, mapGet B k) ∈ B' := hp.subset this
    exact (mapGet_eq_of_mem hB' hmem).symm

/-! ## Claim C2 — schema-compatibility symmetry -/

/-- C2 counterexample: `compareSchemas` is not symmetric on all mappings.
With source column `a` of type `""` and target column `b` of type `q`, the
Go zero-value lookup makes the forward comparison succeed while the reverse
comparison fails. -/
theorem compareSchemas_symmetry_counterexample :
    compareSchemas [("a", "")] [("b", "q")] = true ∧
    compareSchemas [("b", "q")] [("a", "")] = false := by
  decide

/-- C2 (amended): `compareSchemas` is symmetric on mappings with distinct
keys whose type values are all non-empty (an empty-string type matches an
absent column through Go's zero-value lookup, breaking symmetry otherwise);
it is independent of the iteration order of either mapping; and mappings of
different sizes always compare incompatible. -/
theorem compareSchemas_amended :
    (∀ A B : List (String × String), nodupKeys A → nodupKeys B →
      (∀ p ∈ A, p.2 ≠ "") → (∀ p ∈ B, p.2 ≠ "") →
      compareSchemas A B = compareSchemas B A) ∧
    (∀ A B B' : List (String × String), nodupKeys B → B.Perm B' →
      compareSchemas A B = compareSchemas A B' ∧
      compareSchemas B A = compareSchemas B' A) ∧
    (∀ A B : List (String × String), A.length ≠ B.length →
      compareSchemas A B = false) := by
  refine ⟨?_, ?_, ?_⟩
  · intro A B hA hB hvA hvB
    cases hab : compareSchemas A B with
    | true => exact (compareSchemas_true_symm hA hvA hab).symm
    | false =>
      cases hba : compareSchemas B A with
      | true => exact absurd (compareSchemas_true_symm hB hvB hba) (by simp [hab])
      | false => rfl
  · intro A B B' hB hperm
    constructor
    · unfold compareSchemas
      rw [hperm.length_eq]
      by_cases hlen : A.length = B'.length
      · simp only [hlen, ne_eq, not_true_eq_false, if_false]
        rw [Bool.eq_iff_iff]
        simp only [List.all_eq_true]
        constructor
        · intro h p hp
          rw [← mapGet_perm hB hperm]
          exact h p hp
        · intro h p hp
          rw [mapGet_perm hB hperm]
          exact h p hp
      · simp [hlen]
    · unfold compareSchemas
      rw [hperm.length_eq]
      by_cases hlen : B'.length = A.length
      · simp only [hlen, ne_eq, not_true_eq_false, if_false]
        rw [Bool.eq_iff_iff]
        simp only [List.all_eq_true]
        constructor
        · intro h p hp
          exact h p (hperm.symm.subset hp)
        · intro h p hp
          exact h p (hperm.subset hp)
      · simp [hlen]
  · intro A B hlen
    unfold compareSchemas
    simp [hlen]

/-- C2 witness: the amended symmetry and size parts applied at concrete
mappings. -/
theorem compareSchemas_amended_witness :
    compareSchemas [("a", "int"), ("b", "text")] [("b", "text"), ("a", "int")] =
      compareSchemas [("b", "text"), ("a", "int")] [("a", "int"), ("b", "text")] ∧
    compareSchemas [("a", "int")] [] = false :=
  ⟨compareSchemas_amended.1 [("a", "int"), ("b", "text")] [("b", "text"), ("a", "int")]
      (by unfold nodupKeys; decide) (by unfold nodupKeys; decide) (by decide) (by decide),
    compareSchemas_amended.2.2 [("a", "int")] [] (by decide)⟩

/-! ## Claims C3 and C9 — bulk loader -/

/-- Each public loader call preserves the at-most-one-open-transaction
invariant. -/
theorem loaderStep_preserves_LoaderInv (bi : BulkInsert) (h : LoaderInv bi) (op : LoaderOp) :
    LoaderInv (loaderStep bi op) := by
  obtain ⟨cc, cnt, so, otx⟩ := bi
  obtain ⟨h1, h2⟩ := h
  cases op with
  | insertOp =>
    cases so with
    | false =>
      have h0 : otx = 0 := h2 rfl
      subst h0
      by_cases hcc : (cnt + 1) % cc = 0 <;>
        simp [loaderStep, BulkInsert.insert, BulkInsert.getStmt, BulkInsert.commit,
          LoaderInv, hcc]
    | true =>
      replace h1 : otx ≤ 1 := h1
      by_cases hcc : (cnt + 1) % cc = 0 <;>
        simp [loaderStep, BulkInsert.insert, BulkInsert.getStmt, BulkInsert.commit,
          LoaderInv, hcc] <;> omega
  | commitOp =>
    cases so with
    | false =>
      have h0 : otx = 0 := h2 rfl
      subst h0
      simp [loaderStep, BulkInsert.commit, LoaderInv]
    | true =>
      replace h1 : otx ≤ 1 := h1
      simp [loaderStep, BulkInsert.commit, LoaderInv]
      omega
  | rollbackOp =>
    cases so with
    | false =>
      have h0 : otx = 0 := h2 rfl
      subst h0
      simp [loaderStep, BulkInsert.rollback, LoaderInv]
    | true =>
      replace h1 : otx ≤ 1 := h1
      simp [loaderStep, BulkInsert.rollback, LoaderInv]
      omega

/-- The invariant holds at every state a call sequence reaches. -/
theorem runLoader_preserves_LoaderInv (ops : List LoaderOp) (bi : BulkInsert)
    (h : LoaderInv bi) : LoaderInv (runLoader bi ops) := by
  induction ops generalizing bi with
  | nil => exact h
  | cons op ops ih =>
    simp only [runLoader]
    exact ih _ (loaderStep_preserves_LoaderInv bi h op)

/-- C3: along every sequence of loader calls from a fresh loader, at most
one driver transaction is ever open (and none once the statement is closed);
one call preserves this invariant from any state satisfying it; and an
`Insert` that accepts the row reaching the 50 000 threshold implicitly
commits — afterwards the row counter is zero, the statement is closed and no
transaction remains open. -/
theorem bulkInsert_threshold_and_single_tx (ops : List LoaderOp) :
    LoaderInv (runLoader NewBulkInsert ops) ∧
    (∀ bi : BulkInsert, LoaderInv bi → ∀ op, LoaderInv (loaderStep bi op)) ∧
    (∀ bi : BulkInsert, LoaderInv bi → (bi.count + 1) % bi.commitCount = 0 →
      bi.insert.count = 0 ∧ bi.insert.stmtOpen = false ∧ bi.insert.openTx = 0) := by
  refine ⟨?_, ?_, ?_⟩
  · exact runLoader_preserves_LoaderInv ops NewBulkInsert (by simp [LoaderInv, NewBulkInsert])
  · exact fun bi h op => loaderStep_preserves_LoaderInv bi h op
  · intro bi hinv hth
    obtain ⟨cc, cnt, so, otx⟩ := bi
    obtain ⟨h1, h2⟩ := hinv
    simp only at hth
    cases so with
    | false =>
      have h0 : otx = 0 := h2 rfl
      subst h0
      simp [BulkInsert.insert, BulkInsert.getStmt, BulkInsert.commit, hth]
    | true =>
      replace h1 : otx ≤ 1 := h1
      simp [BulkInsert.insert, BulkInsert.getStmt, BulkInsert.commit, hth]
      omega

/-- C3 witness: the invariant after a concrete call sequence, and the
implicit commit applied to a loader one row short of the threshold. -/
theorem bulkInsert_threshold_witness :
    LoaderInv (runLoader NewBulkInsert [LoaderOp.insertOp, LoaderOp.insertOp]) ∧
    ((⟨50000, 49999, true, 1⟩ : BulkInsert).insert.count = 0 ∧
      (⟨50000, 49999, true, 1⟩ : BulkInsert).insert.stmtOpen = false ∧
      (⟨50000, 49999, true, 1⟩ : BulkInsert).insert.openTx = 0) :=
  ⟨(bulkInsert_threshold_and_single_tx [LoaderOp.insertOp, LoaderOp.insertOp]).1,
    (bulkInsert_threshold_and_single_tx []).2.2 ⟨50000, 49999, true, 1⟩
      (by constructor <;> simp) (by decide)⟩

/-- C9: rolling back a loader holding no transaction — fresh from
construction, or after any `Commit` — panics nowhere and returns the
no-active-transaction error. -/
theorem bulkInsert_rollback_without_tx (bi : BulkInsert) :
    NewBulkInsert.rollback = Except.error ("no active transaction to rollback") ∧
    (bi.stmtOpen = false →
      bi.rollback = Except.error ("no active transaction to rollback")) ∧
    (bi.stmtOpen = true →
      bi.commit.rollback = Except.error ("no active transaction to rollback")) := by
  refine ⟨rfl, ?_, ?_⟩
  · intro h
    simp [BulkInsert.rollback, h]
  · intro h
    simp [BulkInsert.commit, BulkInsert.rollback, h]

/-- C9 witness: rollback on the fresh loader and right after a commit. -/
theorem bulkInsert_rollback_witness :
    (⟨50000, 7, false, 0⟩ : BulkInsert).rollback =
      Except.error ("no active transaction to rollback") ∧
    (⟨50000, 7, true, 1⟩ : BulkInsert).commit.rollback =
      Except.error ("no active transaction to rollback") :=
  ⟨(bulkInsert_rollback_without_tx ⟨50000, 7, false, 0⟩).2.1 rfl,
    (bulkInsert_rollback_without_tx ⟨50000, 7, true, 1⟩).2.2 rfl⟩

/-! ## Claim C4 — byte-sequence coercion in Insert -/

/-- The coercion only fires on a pointer-wrapped byte slice; on any other
shape it is the identity. -/
theorem bulkInsertConvertValue_eq_self {v : GoValue}
    (h : ∀ b, v ≠ GoValue.vPtr (GoValue.vBytes b)) : bulkInsertConvertValue v = v := by
  cases v with
  | vPtr w =>
    cases w with
    | vBytes b => exact absurd rfl (h b)
    | vString b => rfl
    | vInt n => rfl
    | vNull => rfl
    | vPtr u => rfl
  | vString b => rfl
  | vBytes b => rfl
  | vInt n => rfl
  | vNull => rfl

/-- The coercion never produces a pointer-wrapped byte slice. -/
theorem bulkInsertConvertValue_ne_ptrBytes (u : GoValue) (b : List Nat) :
    bulkInsertConvertValue u ≠ GoValue.vPtr (GoValue.vBytes b) := by
  cases u with
  | vPtr w => cases w <;> simp [bulkInsertConvertValue]
  | vString c => simp [bulkInsertConvertValue]
  | vBytes c => simp [bulkInsertConvertValue]
  | vInt n => simp [bulkInsertConvertValue]
  | vNull => simp [bulkInsertConvertValue]

/-- C4 counterexample: a byte slice stored bare in the row (not behind the
iterator's `*interface{}` wrapping) is passed through unconverted, so a raw
byte sequence still reaches the load statement. -/
theorem bulkInsert_bare_bytes_counterexample :
    bulkInsertConvertRow [GoValue.vBytes [48], GoValue.vPtr (GoValue.vBytes [49])] =
      [GoValue.vBytes [48], GoValue.vString [49]] ∧
    isRawByteSeq (GoValue.vBytes [48]) = true := by
  decide

/-- C4 (amended): `Insert` converts exactly the pointer-wrapped byte slices
(the shape the row iterator produces) to their text representation, in
place; every other value — a bare byte slice included — passes through
unchanged, and no pointer-wrapped byte slice survives the coercion. -/
theorem bulkInsert_ptr_bytes_coerced (row : List GoValue) :
    (∀ (i : Nat) (b : List Nat),
      row.get? i = some (GoValue.vPtr (GoValue.vBytes b)) →
      (bulkInsertConvertRow row).get? i = some (GoValue.vString b)) ∧
    (∀ (i : Nat) (v : GoValue),
      row.get? i = some v → (∀ b, v ≠ GoValue.vPtr (GoValue.vBytes b)) →
      (bulkInsertConvertRow row).get? i = some v) ∧
    (∀ v ∈ bulkInsertConvertRow row, ∀ b, v ≠ GoValue.vPtr (GoValue.vBytes b)) := by
  refine ⟨?_, ?_, ?_⟩
  · intro i b h
    simp only [bulkInsertConvertRow, List.get?_map, h]
    rfl
  · intro i v h hne
    simp only [bulkInsertConvertRow, List.get?_map, h]
    rw [Option.map_some']
    rw [bulkInsertConvertValue_eq_self hne]
  · intro v hv b
    obtain ⟨u, _, rfl⟩ := List.mem_map.1 hv
    exact bulkInsertConvertValue_ne_ptrBytes u b

/-- C4 witness: the coercion applied to a concrete row. -/
theorem bulkInsert_ptr_bytes_witness :
    (bulkInsertConvertRow [GoValue.vPtr (GoValue.vBytes [49]), GoValue.vInt 5]).get? 0 =
      some (GoValue.vString [49]) :=
  (bulkInsert_ptr_bytes_coerced [GoValue.vPtr (GoValue.vBytes [49]), GoValue.vInt 5]).1 0 [49] rfl

/-! ## Claim C1 — empty source leaves the target untouched -/

/-- C1: a writer stage whose data channel closes before any row arrives
makes no store call at all — in particular no foreign-key lookup, no
foreign-key drop and no truncate — and leaves the target table's rows and
foreign keys exactly as they were; conversely any of those destructive calls
in a writer trace means at least one row was received. -/
theorem copyTask_empty_source_frame (target : TargetState) (rows : List (List GoValue)) :
    copyTaskWriter target [] = (target, []) ∧
    (TargetOp.getRefFks ∈ (copyTaskWriter target rows).2 → rows ≠ []) ∧
    (TargetOp.dropRefFks ∈ (copyTaskWriter target rows).2 → rows ≠ []) ∧
    (TargetOp.emptyTable ∈ (copyTaskWriter target rows).2 → rows ≠ []) := by
  have hempty : copyTaskWriter target [] = (target, []) := rfl
  refine ⟨hempty, ?_, ?_, ?_⟩ <;>
    · intro hmem hnil
      subst hnil
      rw [hempty] at hmem
      simp at hmem

/-- C1 witness: a concrete target with a row and a foreign key is returned
unchanged, with an empty call trace, when the source yields no rows. -/
theorem copyTask_empty_source_frame_witness :
    copyTaskWriter ⟨[[GoValue.vInt 7]], [⟨"fk", "s", "t", "c", "rs", "rt", "rc", "0"⟩]⟩ [] =
      (⟨[[GoValue.vInt 7]], [⟨"fk", "s", "t", "c", "rs", "rt", "rc", "0"⟩]⟩, []) :=
  (copyTask_empty_source_frame ⟨[[GoValue.vInt 7]], [⟨"fk", "s", "t", "c", "rs", "rt", "rc", "0"⟩]⟩
    []).1

/-! ## Claims C7 and C10 — monitor protocol violations -/

/-- C7: when any event other than task-started arrives for a table with no
registered reporter, the run loop stops at once — no later event is
processed — and returns the error naming that table. -/
theorem monitor_unregistered_event_stops (m : Monitor) (e : Event) (rest : List Event)
    (h1 : e.isStarted = false)
    (h2 : lookupMonitor m.monitors (tableRefString e.table) = none) :
    runEvents m (e :: rest) =
      RunResult.halted (some ("no monitor found for table " ++ tableRefString e.table)) := by
  cases e with
  | copyTaskStarted t => simp [Event.isStarted] at h1
  | progressUpdate n t =>
    simp only [Event.table] at h2
    simp [runEvents, monitorStep, h2, Event.table]
  | countUpdate n t =>
    simp only [Event.table] at h2
    simp [runEvents, monitorStep, h2, Event.table]
  | copyTaskFinished t =>
    simp only [Event.table] at h2
    simp [runEvents, monitorStep, h2, Event.table]
  | errorEvent t er =>
    simp only [Event.table] at h2
    simp [runEvents, monitorStep, h2, Event.table]

/-- C7 witness: a progress event for an unknown table stops a fresh
monitor with the error naming the table. -/
theorem monitor_unregistered_event_witness :
    runEvents ⟨[]⟩ [Event.progressUpdate 1 ⟨"dbo", "test"⟩] =
      RunResult.halted (some ("no monitor found for table " ++ tableRefString ⟨"dbo", "test"⟩)) :=
  monitor_unregistered_event_stops ⟨[]⟩ (Event.progressUpdate 1 ⟨"dbo", "test"⟩) [] rfl rfl

/-- C10: a second task-started event for a table that already has a
registered reporter stops the run loop at once with the duplicate-monitor
error naming that table; the event is neither merged nor ignored. -/
theorem monitor_duplicate_started_stops (m : Monitor) (t : TableRef) (r : ProgressReporter)
    (rest : List Event)
    (h : lookupMonitor m.monitors (tableRefString t) = some r) :
    runEvents m (Event.copyTaskStarted t :: rest) =
      RunResult.halted (some ("monitor already exists for table " ++ tableRefString t)) := by
  simp [runEvents, monitorStep, h]

/-- C10 witness: a duplicate start for a concretely registered table. -/
theorem monitor_duplicate_started_witness :
    runEvents ⟨[(tableRefString ⟨"dbo", "test"⟩, NewProgressReporter)]⟩
      [Event.copyTaskStarted ⟨"dbo", "test"⟩] =
      RunResult.halted
        (some ("monitor already exists for table " ++ tableRefString ⟨"dbo", "test"⟩)) :=
  monitor_duplicate_started_stops ⟨[(tableRefString ⟨"dbo", "test"⟩, NewProgressReporter)]⟩
    ⟨"dbo", "test"⟩ NewProgressReporter [] (by simp [lookupMonitor])

/-! ## Claim C5 — parser fixtures -/

/-- C5: the single-clause fixture parses and renders exactly as the test
asserts, the three-clause fixture renders its atoms in order with the
connectors `AND` then `OR` interleaved, and the empty input parses to the
empty filter rendering as the tautology. -/
theorem parseFilter_fixture_renders :
    (parseFilter "column = 'value'").map filterString =
      Except.ok "( [column] = 'value' )" ∧
    (parseFilter "column = 'value' AND column2 = 'value2' OR column3 = 'value3'").map
        filterString =
      Except.ok
        "( [column] = 'value' ) AND ( [column2] = 'value2' ) OR ( [column3] = 'value3' )" ∧
    (parseFilter "").map filterString = Except.ok "1=1" := by
  refine ⟨by rfl, by rfl, by rfl⟩

/-! ## Claim C8 — scheduler chunking -/

/-- `chunkBy` always returns at least one chunk. -/
theorem chunkBy_ne_nil {α : Type} (xs : List α) (k : Nat) : chunkBy xs k ≠ [] := by
  rw [chunkBy.eq_def]
  split <;> simp

/-- C8: for a positive chunk size, the chunks concatenate back to the
input in order, every chunk before the last has exactly the chunk size, and
the final chunk has at most the chunk size (possibly zero) elements. -/
theorem chunkBy_partitions {α : Type} (xs : List α) (k : Nat) (hk : 0 < k) :
    (chunkBy xs k).flatten = xs ∧
    (∀ c ∈ (chunkBy xs k).dropLast, c.length = k) ∧
    (∀ c, (chunkBy xs k).getLast? = some c → c.length ≤ k) := by
  suffices h : ∀ (n : Nat) (xs : List α), xs.length = n →
      (chunkBy xs k).flatten = xs ∧
      (∀ c ∈ (chunkBy xs k).dropLast, c.length = k) ∧
      (∀ c, (chunkBy xs k).getLast? = some c → c.length ≤ k) from h xs.length xs rfl
  intro n
  induction n using Nat.strong_induction_on with
  | _ n ih =>
    intro xs hlen
    by_cases hlt : k < xs.length
    · rw [chunkBy.eq_def, dif_pos ⟨hk, hlt⟩]
      obtain ⟨ih1, ih2, ih3⟩ :=
        ih (xs.length - k) (by omega) (xs.drop k) (by simp)
      have hne : chunkBy (xs.drop k) k ≠ [] := chunkBy_ne_nil _ _
      obtain ⟨y, ys, hys⟩ := List.exists_cons_of_ne_nil hne
      rw [hys] at ih1 ih2 ih3
      rw [hys]
      refine ⟨?_, ?_, ?_⟩
      · rw [List.flatten_cons, ← List.flatten_cons, ← hys, hys, List.flatten_cons, ih1,
          List.take_append_drop]
      · intro c hc
        rw [List.dropLast_cons₂] at hc
        rcases List.mem_cons.1 hc with rfl | hc'
        · rw [List.length_take]
          omega
        · exact ih2 c hc'
      · intro c hc
        rw [List.getLast?_cons_cons] at hc
        exact ih3 c hc
    · rw [chunkBy.eq_def, dif_neg (by omega)]
      refine ⟨by simp, by simp, ?_⟩
      intro c hc
      have hx : ([xs] : List (List α)).getLast? = some xs := rfl
      rw [hx, Option.some.injEq] at hc
      subst hc
      omega

/-- C8 witness: a concrete five-element list in chunks of two. -/
theorem chunkBy_partitions_witness :
    (chunkBy [1, 2, 3, 4, 5] 2).flatten = [1, 2, 3, 4, 5] ∧
    (∀ c ∈ (chunkBy [1, 2, 3, 4, 5] 2).dropLast, c.length = 2) ∧
    (∀ c, (chunkBy [1, 2, 3, 4, 5] 2).getLast? = some c → c.length ≤ 2) :=
  chunkBy_partitions [1, 2, 3, 4, 5] 2 (by decide)

/-! ## Claim C6 — parser shape lemmas -/

/-- `strings.Split` never returns an empty slice. -/
theorem goSplitSpace_ne_nil (s : Chars) : goSplitSpace s ≠ [] := by
  induction s with
  | nil => simp [goSplitSpace]
  | cons c rest ih =>
    simp only [goSplitSpace]
    split
    · simp
    · split <;> simp

/-- Every piece of a space split is space-free. -/
theorem goSplitSpace_spacefree (s : Chars) : ∀ p ∈ goSplitSpace s, ' ' ∉ p := by
  induction s with
  | nil =>
    intro p hp
    simp only [goSplitSpace, List.mem_singleton] at hp
    subst hp
    simp
  | cons c rest ih =>
    intro p hp
    simp only [goSplitSpace] at hp
    by_cases hc : c = ' '
    · rw [if_pos hc] at hp
      rcases List.mem_cons.1 hp with rfl | hp'
      · simp
      · exact ih p hp'
    · rw [if_neg hc] at hp
      cases hgs : goSplitSpace rest with
      | nil => exact absurd hgs (goSplitSpace_ne_nil rest)
      | cons q qs =>
        rw [hgs] at hp
        rcases List.mem_cons.1 hp with rfl | hp'
        · intro hsp
          rcases List.mem_cons.1 hsp with he | hin
          · exact hc he.symm
          · exact ih q (by rw [hgs]; exact List.mem_cons_self _ _) hin
        · exact ih p (by rw [hgs]; exact List.mem_cons_of_mem _ hp')

/-- Splitting a space-free token followed by a space peels off that token. -/
theorem goSplitSpace_token_prepend {t : Chars} (ht : ' ' ∉ t) (r : Chars) :
    goSplitSpace (t ++ ' ' :: r) = t :: goSplitSpace r := by
  induction t with
  | nil => simp [goSplitSpace]
  | cons c t' ih =>
    have hc : ¬ c = ' ' := by
      intro he
      exact ht (by rw [he]; exact List.mem_cons_self _ _)
    have ht' : ' ' ∉ t' := fun hin => ht (List.mem_cons_of_mem _ hin)
    have hstep : goSplitSpace (c :: (t' ++ ' ' :: r)) =
        match goSplitSpace (t' ++ ' ' :: r) with
        | q :: qs => (c :: q) :: qs
        | [] => [[c]] := by
      simp only [goSplitSpace, if_neg hc]
    rw [List.cons_append, hstep, ih ht']

/-- A space-free string splits into itself alone. -/
theorem goSplitSpace_spaceless {w : Chars} (hw : ' ' ∉ w) : goSplitSpace w = [w] := by
  induction w with
  | nil => rfl
  | cons c w' ih =>
    have hc : ¬ c = ' ' := by
      intro he
      exact hw (by rw [he]; exact List.mem_cons_self _ _)
    have hw' : ' ' ∉ w' := fun hin => hw (List.mem_cons_of_mem _ hin)
    simp only [goSplitSpace, if_neg hc, ih hw']

/-- Membership in a split survives prepending spaces. -/
theorem goSplitSpace_mem_spaces {s y : Chars} {w : Chars}
    (hs : ∀ c ∈ s, c = ' ') (hw : w ∈ goSplitSpace y) : w ∈ goSplitSpace (s ++ y) := by
  induction s with
  | nil => simpa using hw
  | cons c s' ih =>
    have hc : c = ' ' := hs c (List.mem_cons_self _ _)
    have hs' : ∀ c ∈ s', c = ' ' := fun d hd => hs d (List.mem_cons_of_mem _ hd)
    simp only [List.cons_append, goSplitSpace, if_pos hc]
    exact List.mem_cons_of_mem _ (ih hs')

/-- `strings.Trim` decomposes its input into cutset runs around its result. -/
theorem trimBy_decomp {p : Char → Bool} {b w : Chars} (h : trimBy p b = w) :
    ∃ s₁ s₂, b = s₁ ++ (w ++ s₂) ∧ (∀ c ∈ s₁, p c = true) ∧ (∀ c ∈ s₂, p c = true) := by
  unfold trimBy at h
  have hrev : (b.dropWhile p).reverse.dropWhile p = w.reverse := by
    have h2 := congrArg List.reverse h
    rwa [List.reverse_reverse] at h2
  have hbase := List.takeWhile_append_dropWhile p (b.dropWhile p).reverse
  rw [hrev] at hbase
  have hu' : b.dropWhile p = w ++ ((b.dropWhile p).reverse.takeWhile p).reverse := by
    have h3 := congrArg List.reverse hbase
    rwa [List.reverse_append, List.reverse_reverse, List.reverse_reverse, eq_comm] at h3
  refine ⟨b.takeWhile p, ((b.dropWhile p).reverse.takeWhile p).reverse, ?_, ?_, ?_⟩
  · rw [← hu']
    exact (List.takeWhile_append_dropWhile p b).symm
  · intro c hc
    exact List.mem_takeWhile_imp hc
  · intro c hc
    exact List.mem_takeWhile_imp (List.mem_reverse.1 hc)

/-- Folding the builder step over tokens with any seed appends the seed. -/
theorem flatTokens_foldr_init (tks : List Chars) (init : Chars) :
    tks.foldr (fun t acc => t ++ ' ' :: acc) init = flatTokens tks ++ init := by
  induction tks with
  | nil => simp [flatTokens]
  | cons u us ih => simp [flatTokens, ih]

/-- The builder is empty exactly when no token has been appended. -/
theorem flatTokens_eq_nil (tks : List Chars) : flatTokens tks = [] ↔ tks = [] := by
  cases tks with
  | nil => simp [flatTokens]
  | cons t ts => simp [flatTokens]

/-- Appending one more token to the builder. -/
theorem flatTokens_append_one (tks : List Chars) (t : Chars) :
    flatTokens (tks ++ [t]) = flatTokens tks ++ (t ++ [' ']) := by
  unfold flatTokens
  rw [List.foldr_append, flatTokens_foldr_init]
  rfl

/-- Splitting the builder recovers exactly the appended tokens (plus the
empty piece after the final trailing space). -/
theorem goSplitSpace_flatTokens {tks : List Chars} (h : ∀ t ∈ tks, ' ' ∉ t) :
    goSplitSpace (flatTokens tks) = tks ++ [[]] := by
  induction tks with
  | nil => rfl
  | cons t ts ih =>
    have ht : ' ' ∉ t := h t (List.mem_cons_self _ _)
    have hts : ∀ u ∈ ts, ' ' ∉ u := fun u hu => h u (List.mem_cons_of_mem _ hu)
    show goSplitSpace (t ++ ' ' :: flatTokens ts) = (t :: ts) ++ [[]]
    rw [goSplitSpace_token_prepend ht, ih hts]
    rfl

/-- Uppercasing a connector token yields an uppercased connector. -/
theorem upperChars_conn {t : Chars} (h : isConnToken t) : isConnUp (upperChars t) := by
  rcases h with h | h | h | h <;> subst h <;>
    first
    | exact Or.inl (by decide)
    | exact Or.inr (by decide)

/-- A space-free non-empty trim result of the builder is one of the
builder's tokens. -/
theorem spaceless_trim_mem {tks : List Chars} {w : Chars}
    (hsp : ∀ t ∈ tks, ' ' ∉ t) (hw : ' ' ∉ w) (hwne : w ≠ [])
    (h : trimBy isSpaceC (flatTokens tks) = w) : w ∈ tks := by
  obtain ⟨s₁, s₂, hb, hs₁, hs₂⟩ := trimBy_decomp h
  have hwmem : w ∈ goSplitSpace (flatTokens tks) := by
    rw [hb]
    apply goSplitSpace_mem_spaces
    · intro c hc
      have := hs₁ c hc
      simpa [isSpaceC] using this
    · cases s₂ with
      | nil =>
        rw [List.append_nil, goSplitSpace_spaceless hw]
        exact List.mem_singleton.2 rfl
      | cons d s₂' =>
        have hd : d = ' ' := by
          have := hs₂ d (List.mem_cons_self _ _)
          simpa [isSpaceC] using this
        rw [hd, goSplitSpace_token_prepend hw]
        exact List.mem_cons_self _ _
  rw [goSplitSpace_flatTokens hsp] at hwmem
  rcases List.mem_append.1 hwmem with hmem | hmem
  · exact hmem
  · rw [List.mem_singleton] at hmem
    exact absurd hmem hwne

/-- The trimmed builder never equals an uppercased connector when only
non-connector tokens were appended: the expression parts `splitExpressions`
emits are never `AND`/`OR`. -/
theorem trim_flatTokens_not_connUp {tks : List Chars}
    (h : ∀ t ∈ tks, ' ' ∉ t ∧ ¬ isConnToken t) :
    ¬ isConnUp (trimBy isSpaceC (flatTokens tks)) := by
  intro hconn
  have hsp : ∀ t ∈ tks, ' ' ∉ t := fun t ht => (h t ht).1
  rcases hconn with hw | hw
  · have hmem := spaceless_trim_mem hsp (by decide) (by decide) hw
    exact (h _ hmem).2 (Or.inl rfl)
  · have hmem := spaceless_trim_mem hsp (by decide) (by decide) hw
    exact (h _ hmem).2 (Or.inr (Or.inl rfl))

/-- Shape of `splitExpressions` output, generalized over the builder: with
space-free input tokens and a builder of space-free non-connector tokens,
the emitted parts alternate as `PartsOut`; the output is empty only for no
input and an empty builder; and the output ends in an uppercased connector
only when the input's last token is a connector. -/
theorem splitGo_shape (ts : List Chars) :
    ∀ (tks : List Chars),
      (∀ t ∈ ts, ' ' ∉ t) →
      (∀ t ∈ tks, ' ' ∉ t ∧ ¬ isConnToken t) →
      PartsOut (splitGo ts (flatTokens tks)) ∧
      (splitGo ts (flatTokens tks) = [] → ts = [] ∧ tks = []) ∧
      (∀ x, (splitGo ts (flatTokens tks)).getLast? = some x → isConnUp x →
        ∃ tl, ts.getLast? = some tl ∧ isConnToken tl) := by
  induction ts with
  | nil =>
    intro tks hts htks
    by_cases htk : tks = []
    · subst htk
      have hout : splitGo [] (flatTokens []) = [] := rfl
      refine ⟨?_, fun _ => ⟨rfl, rfl⟩, ?_⟩
      · rw [hout]
        exact PartsOut.nil
      · intro x hx hxconn
        rw [hout] at hx
        cases hx
    · have hne : flatTokens tks ≠ [] := by
        rw [ne_eq, flatTokens_eq_nil]
        exact htk
      have hpos : 0 < (flatTokens tks).length := List.length_pos.2 hne
      have hout : splitGo [] (flatTokens tks) = [trimBy isSpaceC (flatTokens tks)] := by
        simp [splitGo, hpos]
      refine ⟨?_, ?_, ?_⟩
      · rw [hout]
        exact PartsOut.single _ (trim_flatTokens_not_connUp htks)
      · rw [hout]
        intro h
        exact absurd h (List.cons_ne_nil _ _)
      · intro x hx hxconn
        rw [hout] at hx
        have hx' : trimBy isSpaceC (flatTokens tks) = x := by
          have : ([trimBy isSpaceC (flatTokens tks)]).getLast? =
              some (trimBy isSpaceC (flatTokens tks)) := rfl
          rw [this] at hx
          exact Option.some.inj hx
        exact absurd (hx' ▸ hxconn) (trim_flatTokens_not_connUp htks)
  | cons t ts' ih =>
    intro tks hts htks
    have hts' : ∀ u ∈ ts', ' ' ∉ u := fun u hu => hts u (List.mem_cons_of_mem _ hu)
    by_cases hconn : isConnToken t
    · have hout : splitGo (t :: ts') (flatTokens tks) =
          trimBy isSpaceC (flatTokens tks) :: upperChars t :: splitGo ts' (flatTokens []) := by
        show splitGo (t :: ts') (flatTokens tks) =
          trimBy isSpaceC (flatTokens tks) :: upperChars t :: splitGo ts' []
        simp [splitGo, hconn]
      obtain ⟨ihP, ihN, ihL⟩ := ih [] hts' (by intro u hu; cases hu)
      refine ⟨?_, ?_, ?_⟩
      · rw [hout]
        exact PartsOut.cons _ _ _ (trim_flatTokens_not_connUp htks)
          (upperChars_conn hconn) ihP
      · rw [hout]
        intro h
        exact absurd h (List.cons_ne_nil _ _)
      · intro x hx hxconn
        rw [hout] at hx
        cases hrest : splitGo ts' (flatTokens []) with
        | nil =>
          obtain ⟨hts'nil, -⟩ := ihN hrest
          subst hts'nil
          exact ⟨t, rfl, hconn⟩
        | cons y ys =>
          rw [hrest, List.getLast?_cons_cons, List.getLast?_cons_cons] at hx
          obtain ⟨tl, htl, htlc⟩ := ihL x (by rw [hrest]; exact hx) hxconn
          have hts'ne : ts' ≠ [] := by
            intro he
            subst he
            rw [show splitGo ([] : List Chars) (flatTokens []) = [] from rfl] at hrest
            cases hrest
          obtain ⟨z, zs, hz⟩ := List.exists_cons_of_ne_nil hts'ne
          subst hz
          rw [List.getLast?_cons_cons]
          exact ⟨tl, htl, htlc⟩
    · have hout : splitGo (t :: ts') (flatTokens tks) =
          splitGo ts' (flatTokens (tks ++ [t])) := by
        rw [flatTokens_append_one]
        simp [splitGo, hconn, List.append_assoc]
      have htkst : ∀ u ∈ tks ++ [t], ' ' ∉ u ∧ ¬ isConnToken u := by
        intro u hu
        rcases List.mem_append.1 hu with hu' | hu'
        · exact htks u hu'
        · rw [List.mem_singleton] at hu'
          subst hu'
          exact ⟨hts u (List.mem_cons_self _ _), hconn⟩
      obtain ⟨ihP, ihN, ihL⟩ := ih (tks ++ [t]) hts' htkst
      refine ⟨hout ▸ ihP, ?_, ?_⟩
      · rw [hout]
        intro h
        obtain ⟨-, h2⟩ := ihN h
        exact absurd h2 (by simp)
      · intro x hx hxconn
        rw [hout] at hx
        obtain ⟨tl, htl, htlc⟩ := ihL x hx hxconn
        have hts'ne : ts' ≠ [] := by
          intro he
          subst he
          cases htl
        obtain ⟨z, zs, hz⟩ := List.exists_cons_of_ne_nil hts'ne
        subst hz
        rw [List.getLast?_cons_cons]
        exact ⟨tl, htl, htlc⟩

/-- Expression/connector counting through `parseGo`: on a `PartsOut` part
list that is non-empty and does not end in a connector, a successful parse
appends exactly one more expression than connectors. -/
theorem parseGo_counts {parts : List Chars} (hP : PartsOut parts) :
    ∀ (es : List expression) (os : List Chars) (f' : filter),
      parts ≠ [] →
      (∀ x, parts.getLast? = some x → ¬ isConnUp x) →
      parseGo parts ⟨es, os⟩ = Except.ok f' →
      ∃ k, 1 ≤ k ∧ f'.expressions.length = es.length + k ∧
        f'.operators.length = os.length + (k - 1) := by
  induction hP with
  | nil =>
    intro es os f' hne _ _
    exact absurd rfl hne
  | single p hp =>
    intro es os f' _ _ hok
    simp only [parseGo, if_neg hp] at hok
    cases hm : findExprMatch p with
    | none =>
      rw [hm] at hok
      cases hok
    | some g =>
      obtain ⟨g1, g2, g3⟩ := g
      rw [hm] at hok
      simp only [parseGo] at hok
      cases Except.ok.inj hok
      refine ⟨1, le_refl 1, ?_, ?_⟩ <;> simp
  | cons p c rest hp hc hPrest ih =>
    intro es os f' _ hlast hok
    simp only [parseGo, if_neg hp] at hok
    cases hm : findExprMatch p with
    | none =>
      rw [hm] at hok
      cases hok
    | some g =>
      obtain ⟨g1, g2, g3⟩ := g
      rw [hm] at hok
      simp only [parseGo, if_pos hc] at hok
      cases hrest : rest with
      | nil =>
        exfalso
        apply hlast c _ hc
        rw [hrest]
        rfl
      | cons r0 rs =>
        have hlastr : ∀ x, rest.getLast? = some x → ¬ isConnUp x := by
          intro x hx
          apply hlast x
          rw [List.getLast?_cons_cons]
          rw [hrest] at hx ⊢
          rw [List.getLast?_cons_cons]
          exact hx
        obtain ⟨k, hk1, hkE, hkO⟩ :=
          ih _ _ f' (by rw [hrest]; exact List.cons_ne_nil _ _) hlastr hok
        refine ⟨k + 1, by omega, ?_, ?_⟩
        · rw [hkE]
          simp only [List.length_append, List.length_cons, List.length_nil]
          omega
        · rw [hkO]
          simp only [List.length_append, List.length_cons, List.length_nil]
          omega

/-- With one more expression than connectors, the code's render loop
produces exactly the spec's interleaving. -/
theorem renderLoop_eq_specRender :
    ∀ (os : List Chars) (es : List expression), es.length = os.length + 1 →
      renderLoop es os = specRender (es.map expressionString) os := by
  intro os
  induction os with
  | nil =>
    intro es h
    obtain ⟨e, rfl⟩ := List.length_eq_one.1 h
    simp [renderLoop, renderOpsOnly, specRender]
  | cons o os' ih =>
    intro es h
    cases es with
    | nil => simp at h
    | cons e es' =>
      cases es' with
      | nil =>
        exfalso
        simp at h
      | cons e2 es'' =>
        have h' : (e2 :: es'').length = os'.length + 1 := by
          simp only [List.length_cons] at h ⊢
          omega
        simp only [renderLoop, List.map_cons, specRender]
        rw [ih (e2 :: es'') h']
        simp only [List.map_cons]

/-! ## Claim C6 — connector/expression counts and rendering -/

/-- C6 counterexample: `parseFilter` succeeds on the trailing-connector
input `column = 'value' AND` with one expression and one connector —
not expression count minus one — and its rendering carries a trailing
connector and space. -/
theorem parseFilter_trailing_connector_counterexample :
    (parseFilter "column = 'value' AND").toOption.map
        (fun f => (f.expressions.length, f.operators.length)) = some (1, 1) ∧
    (parseFilter "column = 'value' AND").toOption.map filterString =
      some "( [column] = 'value' ) AND " := by
  exact ⟨rfl, rfl⟩

/-- C6 (amended): for every non-empty input accepted by `parseFilter` whose
final space-separated token is not a connector, the connector count is the
expression count minus one and the rendering is the atoms interleaved with
their connectors in original order, joined by single spaces, ending in an
atom with no trailing connector. -/
theorem parseFilter_wellformed_interleaving (q : String) (f : filter)
    (hq : q ≠ "") (hlast : lastTokenIsConnector q = false)
    (hok : parseFilter q = Except.ok f) :
    f.operators.length + 1 = f.expressions.length ∧
    filterString f = String.mk (specRender (f.expressions.map expressionString) f.operators) := by
  rw [parseFilter, if_neg hq] at hok
  have hsplit : splitExpressions q.data = splitGo (goSplitSpace q.data) (flatTokens []) := rfl
  rw [hsplit] at hok
  obtain ⟨hP, hN, hL⟩ := splitGo_shape (goSplitSpace q.data) []
    (goSplitSpace_spacefree q.data) (by intro u hu; cases hu)
  have hne : splitGo (goSplitSpace q.data) (flatTokens []) ≠ [] := by
    intro h
    exact goSplitSpace_ne_nil q.data (hN h).1
  have hlast' : ∀ x, (splitGo (goSplitSpace q.data) (flatTokens [])).getLast? = some x →
      ¬ isConnUp x := by
    intro x hx hxconn
    obtain ⟨tl, htl, htlc⟩ := hL x hx hxconn
    simp only [lastTokenIsConnector, htl] at hlast
    exact absurd htlc (of_decide_eq_false hlast)
  obtain ⟨k, hk1, hkE, hkO⟩ := parseGo_counts hP [] [] f hne hlast' hok
  simp only [List.length_nil, zero_add] at hkE hkO
  have hlen : f.expressions.length = f.operators.length + 1 := by omega
  refine ⟨by omega, ?_⟩
  rw [filterString, if_neg (by omega)]
  rw [renderLoop_eq_specRender f.operators f.expressions hlen]

/-- C6 witness: the amended statement applied to the concrete accepted
input with no trailing connector. -/
theorem parseFilter_wellformed_witness :
    ("a = 'b'" : String) ≠ "" ∧ lastTokenIsConnector "a = 'b'" = false ∧
    parseFilter "a = 'b'" = Except.ok ⟨[⟨['a'], ['='], ['b']⟩], []⟩ ∧
    ((⟨[⟨['a'], ['='], ['b']⟩], []⟩ : filter).operators.length + 1 =
        (⟨[⟨['a'], ['='], ['b']⟩], []⟩ : filter).expressions.length ∧
      filterString ⟨[⟨['a'], ['='], ['b']⟩], []⟩ =
        String.mk (specRender ([⟨['a'], ['='], ['b']⟩].map expressionString) [])) :=
  ⟨by decide, rfl, rfl,
    parseFilter_wellformed_interleaving "a = 'b'" ⟨[⟨['a'], ['='], ['b']⟩], []⟩
      (by decide) rfl rfl⟩
